import Mathlib

set_option maxHeartbeats 1000000

namespace Hir

structure DefinitionId where
  id : Nat
deriving DecidableEq, Repr

abbrev U32 := Fin (2 ^ 32)

inductive IntegerKind where
  | i8 | i16 | i32 | i64 | isz
  | u8 | u16 | u32 | u64 | usz
deriving DecidableEq, Repr

inductive HirType where
  | primitive (name : String)
  | pointer (elt : HirType)
  | tupleType (fields : List HirType)

structure FunctionType where
  parameters : List HirType
  return_type : HirType

inductive Literal where
  | integer (value : Nat) (kind : IntegerKind)
  | float (bits : Nat)
  | cstring (s : String)
  | char (c : Char)
  | bool (b : Bool)
  | unit
deriving DecidableEq, Repr

inductive Builtin where
  | AddInt | AddFloat
  | SubInt | SubFloat
  | MulInt | MulFloat
  | DivInt | DivFloat
  | ModInt | ModFloat
  | LessInt | LessFloat
  | GreaterInt | GreaterFloat
  | EqInt | EqFloat | EqChar | EqBool
  | SignExtend | ZeroExtend | Truncate
  | Deref | Offset | Transmute
deriving DecidableEq, Repr

mutual

inductive Ast where
  | literal (l : Literal)
  | var (v : DefinitionInfo)
  | lambda (l : Lambda)
  | functionCall (c : FunctionCall)
  | definition (d : Definition)
  | if_ (i : If)
  | match_ (m : Match)
  | return_ (r : Return)
  | sequence (s : Sequence)
  | extern_ (e : Extern)
  | assignment (a : Assignment)
  | memberAccess (m : MemberAccess)
  | tuple (t : Tuple)
  | reinterpretCast (r : ReinterpretCast)
  | builtin (b : Builtin)

inductive DefinitionInfo where
  | mk (definition : Option Ast) (definition_id : DefinitionId)

inductive Lambda where
  | mk (args : List Ast) (body : Ast) (typ : FunctionType)

inductive FunctionCall where
  | mk (function : Ast) (args : List Ast)

inductive Definition where
  | mk (var : DefinitionId) (expr : Ast) (mutable : Bool)

inductive If where
  | mk (condition : Ast) (then_ : Ast) (otherwise : Option Ast)

inductive Match where
  | mk (branches : List Ast) (decision_tree : DecisionTree)

inductive DecisionTree where
  | leaf (i : Nat)
  | definition (d : Definition) (rest : DecisionTree)
  | switch (int_to_switch_on : Ast) (cases : List (U32 × DecisionTree))
      (else_case : Option DecisionTree)

inductive Return where
  | mk (expression : Ast)

inductive Sequence where
  | mk (statements : List Ast)

inductive Extern where
  | mk (name : String) (typ : HirType)

inductive Assignment where
  | mk (lhs : Ast) (rhs : Ast)

inductive MemberAccess where
  | mk (lhs : Ast) (member_index : Nat)

inductive Tuple where
  | mk (fields : List Ast)

inductive ReinterpretCast where
  | mk (lhs : Ast) (target_type : HirType)

end

abbrev Variable := DefinitionInfo

def DefinitionInfo.definition : DefinitionInfo → Option Ast
  | .mk d _ => d

def DefinitionInfo.definition_id : DefinitionInfo → DefinitionId
  | .mk _ i => i

def Definition.var : Definition → DefinitionId
  | .mk v _ _ => v

def If.otherwise : If → Option Ast
  | .mk _ _ o => o

def If.condition : If → Ast
  | .mk c _ _ => c

def If.then_ : If → Ast
  | .mk _ t _ => t

/-- Embeds `impl From<DefinitionId> for Variable` (mod.rs lines 59-63):
`Variable { definition_id, definition: None }`. -/
def Variable.fromDefinitionId (definition_id : DefinitionId) : Variable :=
  .mk none definition_id

/-- Embeds `impl From<Definition> for DefinitionInfo` (mod.rs lines 91-98):
`DefinitionInfo { definition_id: def.variable, definition: Some(Rc::new(Ast::Definition(def))) }`.
The `Rc` shared handle is modelled as the held `Ast` value itself. -/
def DefinitionInfo.fromDefinition (d : Definition) : DefinitionInfo :=
  .mk (some (Ast.definition d)) d.var

/-- The documented invariant of `DefinitionInfo.definition` (mod.rs lines 38-45):
when the handle is present it holds an `Ast::Definition` binding this very
`definition_id`. -/
def VariableInvariant (v : Variable) : Prop :=
  ∀ a, v.definition = some a →
    ∃ d : Definition, a = Ast.definition d ∧ d.var = v.definition_id

/-- Exact-value dispatch over the case list of a `DecisionTree::Switch`:
the first case whose `u32` label equals the discriminant value wins. -/
def DecisionTree.findCase (d : Nat) (cases : List (U32 × DecisionTree)) :
    Option DecisionTree :=
  (cases.find? (fun c => c.1.val == d)).map Prod.snd

/-- The case list of a `DecisionTree::Switch` node (empty for the other variants). -/
def DecisionTree.switchCases : DecisionTree → List (U32 × DecisionTree)
  | .switch _ cases _ => cases
  | _ => []

/-- Rank of a `Literal` variant in declaration order, as used by the derived
`PartialOrd`/`Ord` on `Literal` (mod.rs line 26). -/
def Literal.rank : Literal → Nat
  | .integer _ _ => 0
  | .float _ => 1
  | .cstring _ => 2
  | .char _ => 3
  | .bool _ => 4
  | .unit => 5

/-- Declaration-order rank of `IntegerKind` for its derived ordering.
Modelled from the spec: hir/types.rs is not under src, only the signedness
and bit-width tags are specified. -/
def IntegerKind.rank : IntegerKind → Nat
  | .i8 => 0 | .i16 => 1 | .i32 => 2 | .i64 => 3 | .isz => 4
  | .u8 => 5 | .u16 => 6 | .u32 => 7 | .u64 => 8 | .usz => 9

/-- The strict order on `Literal` derived by `#[derive(PartialOrd, Ord)]`
(mod.rs line 26): variants in declaration order, fields lexicographically.
The `Float` payload is compared as a 64-bit integer bit pattern. -/
def Literal.lt (a b : Literal) : Bool :=
  match a, b with
  | .integer v k, .integer v' k' =>
      decide (v < v') || (decide (v = v') && decide (k.rank < k'.rank))
  | .float x, .float y => decide (x < y)
  | .cstring s, .cstring t => decide (s < t)
  | .char c, .char d => decide (c < d)
  | .bool x, .bool y => !x && y
  | .unit, .unit => false
  | x, y => decide (x.rank < y.rank)

/-! Decision-tree builder model.

Modelled from the spec: the pattern-match compiler lives in
`hir/decision_tree_monomorphisation.rs`, which is not under `src/`; only the
`DecisionTree` data type and its documentation comment are. Following spec
section 4.2, a match's patterns arrive as flattened rows of discriminant
constraints over value-path columns; the builder partitions rows by the next
constrained column, emitting one `Switch` case per distinct observed constant
and an `else_case` from the rows that left the column unconstrained. The
`Switch` scrutinee expression is abstracted to the index of the column it
examines, so the model tree `DTree` mirrors `DecisionTree` with `col : Nat`
in place of `int_to_switch_on : Ast`. -/

/-- One match row's pattern: per column, `some c` constrains the column's
integer discriminant to equal `c`; `none` is a wildcard. -/
abbrev Pat := List (Option U32)

/-- Reduce a `Nat` into a `u32` label, as the builder stores case constants. -/
def u32 (n : Nat) : U32 :=
  ⟨n % 2 ^ 32, Nat.mod_lt n (by norm_num)⟩

/-- Modelled from the spec: the decision tree produced by the builder, with
the `Switch` discriminant expression abstracted to a column index and the
`Definition` variant kept as the binding pass-through it is in `DecisionTree`. -/
inductive DTree where
  | leaf (i : Nat)
  | definition (id : DefinitionId) (rest : DTree)
  | switch (col : Nat) (cases : List (U32 × DTree)) (else_case : Option DTree)

/-- First `Switch` case whose `u32` label equals the discriminant value, as
dispatch "by exact discriminant value" selects it. -/
def DTree.selectCase (d : U32) : List (U32 × DTree) → Option DTree
  | [] => none
  | (c, t) :: rest => if c = d then some t else DTree.selectCase d rest

/-- Modelled from the spec: evaluate a decision tree against the flattened
scrutinee discriminants `v` — follow `Switch` cases by exact value, fall back
to `else_case`, pass through `Definition` bindings, stop at a `Leaf`. `fuel`
bounds the recursion depth; any fuel exceeding the tree depth is enough. -/
def DTree.eval : Nat → List U32 → DTree → Option Nat
  | 0, _, _ => none
  | _ + 1, _, .leaf i => some i
  | fuel + 1, v, .definition _ rest => DTree.eval fuel v rest
  | fuel + 1, v, .switch col cases els =>
      match v[col]? with
      | none => none
      | some d =>
          match DTree.selectCase d cases with
          | some t => DTree.eval fuel v t
          | none =>
              match els with
              | some e => DTree.eval fuel v e
              | none => none

/-- Occurrence of `Leaf i` anywhere in a model tree: at the root, under a
`Definition` binding, inside some `Switch` case, or inside the `else_case`. -/
inductive DTree.LeafIn (i : Nat) : DTree → Prop
  | here : DTree.LeafIn i (.leaf i)
  | under {id : DefinitionId} {rest : DTree} :
      DTree.LeafIn i rest → DTree.LeafIn i (.definition id rest)
  | inCase {col : Nat} {cases : List (U32 × DTree)} {els : Option DTree}
      {c : U32} {t : DTree} :
      (c, t) ∈ cases → DTree.LeafIn i t → DTree.LeafIn i (.switch col cases els)
  | inElse {col : Nat} {cases : List (U32 × DTree)} {els : Option DTree}
      {e : DTree} :
      els = some e → DTree.LeafIn i e → DTree.LeafIn i (.switch col cases els)

/-- All `Leaf` indices in a model tree, with multiplicity, down to depth
`fuel` (any fuel exceeding the tree depth collects them all). -/
def DTree.leaves : Nat → DTree → List Nat
  | 0, _ => []
  | _ + 1, .leaf i => [i]
  | fuel + 1, .definition _ rest => DTree.leaves fuel rest
  | fuel + 1, .switch _ cases els =>
      (cases.map fun ct => DTree.leaves fuel ct.2).flatten ++
        (match els with
         | some e => DTree.leaves fuel e
         | none => [])

/-- Number of positions, down to depth `fuel`, holding `Leaf i`. -/
def DTree.countLeaf (fuel i : Nat) (t : DTree) : Nat :=
  ((DTree.leaves fuel t).filter (fun j => j == i)).length

/-- The constraint a row places on column `j`, if any. -/
def patConstraint (j : Nat) (p : Pat) : Option U32 :=
  (p[j]?).join

/-- A pattern is satisfied by the scrutinee discriminants `v` when every
constrained column holds exactly the required constant. -/
def rowMatches (v : List U32) (p : Pat) : Bool :=
  (List.range p.length).all fun j =>
    match patConstraint j p with
    | none => true
    | some c => v[j]? == some c

/-- The branch index of the first row (in source order) whose pattern is
satisfied — standard first-match semantics over indexed rows. -/
def firstMatch (v : List U32) (rows : List (Nat × Pat)) : Option Nat :=
  (rows.find? fun r => rowMatches v r.2).map Prod.fst

/-- Distinct values of a list in first-occurrence order. -/
def distinctConsts (l : List U32) : List U32 :=
  l.foldl (fun acc c => if c ∈ acc then acc else acc ++ [c]) []

/-- The distinct constants observed at column `j` across the rows. -/
def colConsts (j : Nat) (rows : List (Nat × Pat)) : List U32 :=
  distinctConsts (rows.filterMap fun r => patConstraint j r.2)

/-- The rows compatible with the case `column j = c`: those that constrain the
column to `c` and those that left it unconstrained. -/
def specRows (j : Nat) (c : U32) (rows : List (Nat × Pat)) : List (Nat × Pat) :=
  rows.filter fun r =>
    match patConstraint j r.2 with
    | none => true
    | some c' => c' == c

/-- The rows that did not constrain column `j`, forming the `else_case`. -/
def defaultRows (j : Nat) (rows : List (Nat × Pat)) : List (Nat × Pat) :=
  rows.filter fun r => (patConstraint j r.2).isNone

/-- Modelled from the spec (section 4.2): recursively partition the remaining
rows by the next undecided column `j`; emit one `Switch` case per distinct
constant observed there, an `else_case` from the rows that did not constrain
the column (omitted when there are none), skip columns no row constrains, and
emit the first remaining row's `Leaf` once no column is left to test. `fuel`
counts the columns still to examine. -/
def compileAux : Nat → Nat → List (Nat × Pat) → DTree
  | 0, _, rows => .leaf ((rows.head?.map Prod.fst).getD 0)
  | fuel + 1, j, rows =>
      let consts := colConsts j rows
      if consts.isEmpty then
        compileAux fuel (j + 1) rows
      else
        .switch j
          (consts.map fun c => (c, compileAux fuel (j + 1) (specRows j c rows)))
          (if (defaultRows j rows).isEmpty then none
           else some (compileAux fuel (j + 1) (defaultRows j rows)))

/-- Compile a match's pattern rows, branch `i` being the `i`-th pattern in
source order, over `width` scrutinee columns. -/
def compileMatch (width : Nat) (pats : List Pat) : DTree :=
  compileAux width 0 pats.enum

/-- The spec's section-8 scenario
`match (a, b) | (None, _) -> .. | (_, None) -> .. | (Some x, Some y) -> ..`
with the first two arms selecting the same branch index 0 (tag 0 = None,
tag 1 = Some). -/
def sharedLeafRows : List (Nat × Pat) :=
  [(0, [some (u32 0), none]),
   (0, [none, some (u32 0)]),
   (1, [some (u32 1), some (u32 1)])]

/-- The tree the builder produces for `sharedLeafRows`: `leaf 0` occurs as a
separate copy at four positions, never as one shared node. -/
def sharedLeafTree : DTree :=
  .switch 0
    [(u32 0, .switch 1 [(u32 0, .leaf 0)] (some (.leaf 0))),
     (u32 1, .switch 1 [(u32 0, .leaf 0), (u32 1, .leaf 1)] none)]
    (some (.switch 1 [(u32 0, .leaf 0)] none))

/-! Monomorphisation engine model.

Modelled from the spec: the engine lives in `hir/monomorphisation.rs`, which
is not under `src/`; `mod.rs` line 17 only re-exports `monomorphise`.
Following spec sections 4.3 and 9, a generic definition is a body whose types
mention type parameters `tvar n` with `n` below the definition's arity; a
call site carries the generic definition's identity and its concrete type
arguments; instantiation clones the body substituting the arguments
throughout, memoized by (definition identity, concrete type arguments), and
the call site is rewritten to reference the instantiation's `DefinitionId`.
Generic bodies are modelled call-free (first-order); the fatal
internal-consistency fault for an unknown definition (spec section 7) is
outside the well-formedness hypotheses and modelled by a unit stub. -/

/-- Modelled from the spec: source-level types — concrete base and function
types plus generic type parameters `tvar n`. -/
inductive MType where
  | int
  | bool
  | tvar (n : Nat)
  | fn (arg ret : MType)
deriving DecidableEq, Repr

/-- A type is concrete when it mentions no generic type parameter. -/
def MType.isConcrete : MType → Bool
  | .int => true
  | .bool => true
  | .tvar _ => false
  | .fn a r => a.isConcrete && r.isConcrete

/-- All type parameters mentioned are below `arity`. -/
def MType.tvarsBelow (arity : Nat) : MType → Bool
  | .int => true
  | .bool => true
  | .tvar n => decide (n < arity)
  | .fn a r => a.tvarsBelow arity && r.tvarsBelow arity

/-- Substitute the type arguments for the type parameters. -/
def MType.subst (args : List MType) : MType → MType
  | .int => .int
  | .bool => .bool
  | .tvar n => (args[n]?).getD (.tvar n)
  | .fn a r => .fn (a.subst args) (r.subst args)

/-- Modelled from the spec: a monomorphisation-side expression; a call site
already rewritten references a concrete instantiation by `DefinitionId`. -/
inductive MExpr where
  | lit (l : Literal)
  | concreteCall (id : DefinitionId)
  | lam (paramType : MType) (body : MExpr)
  | app (fn : MExpr) (arg : MExpr)
deriving DecidableEq

/-- Substitute type arguments throughout an expression's types. -/
def MExpr.subst (args : List MType) : MExpr → MExpr
  | .lit l => .lit l
  | .concreteCall id => .concreteCall id
  | .lam t b => .lam (t.subst args) (b.subst args)
  | .app f a => .app (f.subst args) (a.subst args)

/-- Every type mentioned in the expression is concrete. -/
def MExpr.isConcrete : MExpr → Bool
  | .lit _ => true
  | .concreteCall _ => true
  | .lam t b => t.isConcrete && b.isConcrete
  | .app f a => f.isConcrete && a.isConcrete

/-- Every type mentioned has its type parameters below `arity`. -/
def MExpr.typesBelow (arity : Nat) : MExpr → Bool
  | .lit _ => true
  | .concreteCall _ => true
  | .lam t b => t.tvarsBelow arity && b.typesBelow arity
  | .app f a => f.typesBelow arity && a.typesBelow arity

/-- Modelled from the spec: a generic definition — its generic parameter
count and its (call-free) body mentioning `tvar`s below that count. -/
structure GenDef where
  arity : Nat
  body : MExpr

/-- Modelled from the spec: a source expression before monomorphisation; a
`genericCall f targs` is a call site of generic definition `f` at the
resolved concrete type arguments `targs`. -/
inductive SExpr where
  | lit (l : Literal)
  | genericCall (f : Nat) (targs : List MType)
  | lam (paramType : MType) (body : SExpr)
  | app (fn : SExpr) (arg : SExpr)

/-- Memo key: generic definition identity plus concrete type arguments. -/
abbrev MemoKey := Nat × List MType

/-- The engine's per-compilation state: the memo table, the concrete
`Definition`s produced so far in production order, and a fresh-id counter. -/
structure MonoState where
  memo : List (MemoKey × DefinitionId)
  defs : List (DefinitionId × MExpr)
  next : Nat

/-- First memo entry for a key, if any. -/
def memoLookup (k : MemoKey) : List (MemoKey × DefinitionId) → Option DefinitionId
  | [] => none
  | (k', id) :: rest => if k' = k then some id else memoLookup k rest

/-- Modelled from the spec (section 4.3): walk the typed tree; at a call
site, reuse the memoized instantiation if this exact (definition, type
arguments) pair was already produced, otherwise substitute the type
arguments through a clone of the generic body, record the new concrete
`Definition` under a fresh `DefinitionId`, and rewrite the call site to
reference that id. -/
def monoExpr (gens : List GenDef) : SExpr → MonoState → MExpr × MonoState
  | .lit l, st => (.lit l, st)
  | .genericCall f targs, st =>
      match memoLookup (f, targs) st.memo with
      | some id => (.concreteCall id, st)
      | none =>
          (.concreteCall ⟨st.next⟩,
            { memo := st.memo ++ [((f, targs), ⟨st.next⟩)],
              defs := st.defs ++
                [(⟨st.next⟩,
                  match gens[f]? with
                  | some g => MExpr.subst targs g.body
                  | none => .lit .unit)],
              next := st.next + 1 })
  | .lam t b, st =>
      (.lam t (monoExpr gens b st).1, (monoExpr gens b st).2)
  | .app f a, st =>
      (.app (monoExpr gens f st).1 (monoExpr gens a (monoExpr gens f st).2).1,
        (monoExpr gens a (monoExpr gens f st).2).2)

/-- Monomorphise a program's expression starting from the empty
per-compilation state. -/
def monomorphise (gens : List GenDef) (e : SExpr) : MExpr × MonoState :=
  monoExpr gens e ⟨[], [], 0⟩

/-- All call-site keys of a source expression, in traversal order. -/
def callKeys : SExpr → List MemoKey
  | .lit _ => []
  | .genericCall f targs => [(f, targs)]
  | .lam _ b => callKeys b
  | .app f a => callKeys f ++ callKeys a

/-- The keys of an expression's call sites not in `seen`, each once, in
first-encounter order. -/
def newKeys (seen : List MemoKey) : SExpr → List MemoKey
  | .lit _ => []
  | .genericCall f targs => if (f, targs) ∈ seen then [] else [(f, targs)]
  | .lam _ b => newKeys seen b
  | .app f a => newKeys seen f ++ newKeys (seen ++ newKeys seen f) a

/-- Rewrite every call site through a finished memo table. -/
def rewriteExpr (memo : List (MemoKey × DefinitionId)) : SExpr → MExpr
  | .lit l => .lit l
  | .genericCall f targs =>
      .concreteCall ((memoLookup (f, targs) memo).getD ⟨0⟩)
  | .lam t b => .lam t (rewriteExpr memo b)
  | .app f a => .app (rewriteExpr memo f) (rewriteExpr memo a)

/-- Well-formedness of one call site: it names an existing generic
definition and supplies exactly its arity in concrete type arguments. -/
def CallWF (gens : List GenDef) (k : MemoKey) : Prop :=
  ∃ g, gens[k.1]? = some g ∧ k.2.length = g.arity ∧
    ∀ t ∈ k.2, t.isConcrete = true

/-- The engine-state invariant: memo keys are distinct, one produced
`Definition` per memo entry, and each memo entry's id is bound in `defs` to
the substituted clone of its generic's body. -/
def MonoInv (gens : List GenDef) (st : MonoState) : Prop :=
  (st.memo.map Prod.fst).Nodup ∧
  st.defs.length = st.memo.length ∧
  (∀ k id, (k, id) ∈ st.memo →
    ∃ body, (id, body) ∈ st.defs ∧
      ∀ g, gens[k.1]? = some g → body = MExpr.subst k.2 g.body) ∧
  (∀ d ∈ st.defs, MExpr.isConcrete d.2 = true)

/-- The spec's section-8 scenario: a generic identity-like definition
`id<T>` of one type parameter. -/
def idGenDefs : List GenDef :=
  [⟨1, .lam (.tvar 0) (.lit .unit)⟩]

/-- Call sites `id<Int>`, `id<Bool>`, and `id<Int>` again (the repeat must
reuse the memoized instantiation): two distinct concrete tuples. -/
def idCalls : SExpr :=
  .app (.genericCall 0 [.int])
    (.app (.genericCall 0 [.bool]) (.genericCall 0 [.int]))

/-! Sizes of the tree family, used as the structural-walk fuel bound and the
queue-loop measure. -/

mutual

def astSize : Ast → Nat
  | .literal _ => 1
  | .var (.mk d _) => 1 + optAstSize d
  | .lambda (.mk args body _) => 1 + astListSize args + astSize body
  | .functionCall (.mk f args) => 1 + astSize f + astListSize args
  | .definition (.mk _ expr _) => 1 + astSize expr
  | .if_ (.mk c t o) => 1 + astSize c + astSize t + optAstSize o
  | .match_ (.mk branches dtree) => 1 + astListSize branches + treeSize dtree
  | .return_ (.mk e) => 1 + astSize e
  | .sequence (.mk stmts) => 1 + astListSize stmts
  | .extern_ _ => 1
  | .assignment (.mk l r) => 1 + astSize l + astSize r
  | .memberAccess (.mk l _) => 1 + astSize l
  | .tuple (.mk fields) => 1 + astListSize fields
  | .reinterpretCast (.mk l _) => 1 + astSize l
  | .builtin _ => 1

def defSize : Definition → Nat
  | .mk _ expr _ => 1 + astSize expr

def astListSize : List Ast → Nat
  | [] => 1
  | x :: xs => 1 + astSize x + astListSize xs

def treeSize : DecisionTree → Nat
  | .leaf _ => 1
  | .definition d rest => 1 + defSize d + treeSize rest
  | .switch scrut cases els =>
      1 + astSize scrut + casesSize cases + optTreeSize els

def casesSize : List (U32 × DecisionTree) → Nat
  | [] => 1
  | (_, t) :: cs => 1 + treeSize t + casesSize cs

def optAstSize : Option Ast → Nat
  | none => 1
  | some a => 1 + astSize a

def optTreeSize : Option DecisionTree → Nat
  | none => 1
  | some t => 1 + treeSize t

end

/-! Printer model.

Modelled from the spec: `AstPrinter` and `fmt_ast` live in `hir/printer.rs`,
which is not under `src/`; only the `Display` impl (mod.rs lines 260-272) is:
it renders the root, then pops queued definitions until the queue is empty,
separated by blank lines. Following spec section 4.4, the walk renders a
`Variable` as a short reference to its `DefinitionId` and never recurses into
its definition handle inline; a definition whose id has not yet been
scheduled is enqueued (by identity) to be printed after the current node.
The structural walk is fueled (`sizeOf` of the node always suffices, and the
fuel only bounds the purely structural recursion, which in the source is
ordinary terminating recursion over the owned tree); the queue loop's
termination is what the theorems establish. `printed` records, in order, the
ids of the definitions emitted by the queue loop. -/

/-- The printer state: the FIFO queue of definitions scheduled for printing
(each recorded under the identity it was scheduled by), the set of already
scheduled identities, and the order in which the queue loop has printed
definitions so far. -/
structure PrinterSt where
  queue : List (DefinitionId × Ast)
  seen : List DefinitionId
  printed : List DefinitionId

/-- Short textual reference to a definition identity. -/
def defIdStr (id : DefinitionId) : String :=
  "v" ++ toString id.id

/-- Render a literal. -/
def fmtLiteral : Literal → String
  | .integer n _ => toString n
  | .float bits => "float#" ++ toString bits
  | .cstring s => s
  | .char c => toString c
  | .bool b => cond b "true" "false"
  | .unit => "()"

/-- The `Variable` rendering step: print only the short id reference; if the
variable carries a definition handle whose id was not yet scheduled, mark it
seen and enqueue the held definition node for later printing. -/
def fmtVar (v : DefinitionInfo) (st : PrinterSt) : String × PrinterSt :=
  match v with
  | .mk (some defAst) id =>
      if id ∈ st.seen then (defIdStr id, st)
      else (defIdStr id,
        { st with seen := st.seen ++ [id], queue := st.queue ++ [(id, defAst)] })
  | .mk none id => (defIdStr id, st)

/-- One pending rendering obligation of the structural walk. -/
inductive FmtTask where
  | one (a : Ast)
  | many (l : List Ast)
  | tree (t : DecisionTree)
  | treeCases (cs : List (U32 × DecisionTree))
  | optAst (o : Option Ast)
  | optTree (o : Option DecisionTree)

/-- The size of the object a task renders. -/
def FmtTask.size : FmtTask → Nat
  | .one a => astSize a
  | .many l => astListSize l
  | .tree t => treeSize t
  | .treeCases cs => casesSize cs
  | .optAst o => optAstSize o
  | .optTree o => optTreeSize o

/-- Modelled from the spec: the structural rendering walk. It renders one
node (S-expression-like), recursing only into the node's owned children —
never into a `Variable`'s definition handle, which is handled by `fmtVar`'s
enqueueing. `fuel` bounds the recursion depth; `sizeOf` of the rendered
object always suffices. -/
def fmtStep : Nat → FmtTask → PrinterSt → String × PrinterSt
  | 0, _, st => ("", st)
  | fuel + 1, task, st =>
      match task with
      | .one a =>
          match a with
          | .literal l => (fmtLiteral l, st)
          | .var v => fmtVar v st
          | .lambda (.mk args body _) =>
              let r1 := fmtStep fuel (.many args) st
              let r2 := fmtStep fuel (.one body) r1.2
              ("(fn" ++ r1.1 ++ " -> " ++ r2.1 ++ ")", r2.2)
          | .functionCall (.mk f args) =>
              let r1 := fmtStep fuel (.one f) st
              let r2 := fmtStep fuel (.many args) r1.2
              ("(" ++ r1.1 ++ r2.1 ++ ")", r2.2)
          | .definition (.mk v expr _) =>
              let r := fmtStep fuel (.one expr) st
              ("(" ++ defIdStr v ++ " = " ++ r.1 ++ ")", r.2)
          | .if_ (.mk c t o) =>
              let r1 := fmtStep fuel (.one c) st
              let r2 := fmtStep fuel (.one t) r1.2
              let r3 := fmtStep fuel (.optAst o) r2.2
              ("(if " ++ r1.1 ++ " then " ++ r2.1 ++ r3.1 ++ ")", r3.2)
          | .match_ (.mk branches dtree) =>
              let r1 := fmtStep fuel (.tree dtree) st
              let r2 := fmtStep fuel (.many branches) r1.2
              ("(match " ++ r1.1 ++ r2.1 ++ ")", r2.2)
          | .return_ (.mk e) =>
              let r := fmtStep fuel (.one e) st
              ("(return " ++ r.1 ++ ")", r.2)
          | .sequence (.mk stmts) =>
              let r := fmtStep fuel (.many stmts) st
              ("(seq" ++ r.1 ++ ")", r.2)
          | .extern_ (.mk name _) => ("(extern " ++ name ++ ")", st)
          | .assignment (.mk l r) =>
              let r1 := fmtStep fuel (.one l) st
              let r2 := fmtStep fuel (.one r) r1.2
              ("(" ++ r1.1 ++ " := " ++ r2.1 ++ ")", r2.2)
          | .memberAccess (.mk l i) =>
              let r := fmtStep fuel (.one l) st
              ("(" ++ r.1 ++ "." ++ toString i ++ ")", r.2)
          | .tuple (.mk fields) =>
              let r := fmtStep fuel (.many fields) st
              ("(tuple" ++ r.1 ++ ")", r.2)
          | .reinterpretCast (.mk l _) =>
              let r := fmtStep fuel (.one l) st
              ("(cast " ++ r.1 ++ ")", r.2)
          | .builtin _ => ("builtin", st)
      | .many [] => ("", st)
      | .many (x :: xs) =>
          let r1 := fmtStep fuel (.one x) st
          let r2 := fmtStep fuel (.many xs) r1.2
          (" " ++ r1.1 ++ r2.1, r2.2)
      | .tree (.leaf i) => ("(leaf " ++ toString i ++ ")", st)
      | .tree (.definition d rest) =>
          let r1 := fmtStep fuel (.one (Ast.definition d)) st
          let r2 := fmtStep fuel (.tree rest) r1.2
          (r1.1 ++ " " ++ r2.1, r2.2)
      | .tree (.switch scrut cases els) =>
          let r1 := fmtStep fuel (.one scrut) st
          let r2 := fmtStep fuel (.treeCases cases) r1.2
          let r3 := fmtStep fuel (.optTree els) r2.2
          ("(switch " ++ r1.1 ++ r2.1 ++ r3.1 ++ ")", r3.2)
      | .treeCases [] => ("", st)
      | .treeCases (c :: cs) =>
          let r1 := fmtStep fuel (.tree c.2) st
          let r2 := fmtStep fuel (.treeCases cs) r1.2
          (" (case " ++ toString c.1.val ++ " " ++ r1.1 ++ ")" ++ r2.1, r2.2)
      | .optAst none => ("", st)
      | .optAst (some a) =>
          let r := fmtStep fuel (.one a) st
          (" else " ++ r.1, r.2)
      | .optTree none => ("", st)
      | .optTree (some t) =>
          let r := fmtStep fuel (.tree t) st
          (" (else " ++ r.1 ++ ")", r.2)

/-- The queue loop of the `Display` impl (mod.rs lines 265-268): pop the
front of the queue, emit a blank-line separator and the popped definition
(recording its identity in `printed`), until the queue is empty. `dfuel`
bounds the number of loop iterations; the termination theorem shows the
computed bound always suffices. -/
def drain : Nat → Nat → PrinterSt → String → Option (String × PrinterSt)
  | 0, _, _, _ => none
  | dfuel + 1, wfuel, st, acc =>
      match st.queue with
      | [] => some (acc, st)
      | (id, a) :: rest =>
          let r := fmtStep wfuel (.one a)
            ⟨rest, st.seen, st.printed ++ [id]⟩
          drain dfuel wfuel r.2 (acc ++ "\n\n" ++ r.1)

/-- The loop measure: total size of the queued definitions. -/
def queueMeasure (st : PrinterSt) : Nat :=
  (st.queue.map fun x => 1 + astSize x.2).sum

/-- The `Display` impl (mod.rs lines 260-272): render the root from the empty
printer state, then run the queue loop, with loop fuel computed from the
pending queue (always sufficient, by `display_terminates_each_definition_once`). -/
def display (a : Ast) : Option (String × PrinterSt) :=
  let r := fmtStep (astSize a) (.one a) ⟨[], [], []⟩
  drain (queueMeasure r.2 + 1) (astSize a) r.2 r.1

/-- The queue loop run with an explicit iteration bound `dfuel`. -/
def displayWith (dfuel : Nat) (a : Ast) : Option (String × PrinterSt) :=
  let r := fmtStep (astSize a) (.one a) ⟨[], [], []⟩
  drain dfuel (astSize a) r.2 r.1

/-- What one structural-walk call does to the printer state: it only appends
to the queue, schedules exactly the ids of the appended items (keeping
distinct scheduled ids distinct), leaves `printed` alone, and the appended
definitions are owned subterms of the walked object, so their total size is
below the object's size. -/
def StepOk (n : Nat) (st st2 : PrinterSt) : Prop :=
  ∃ new : List (DefinitionId × Ast),
    st2.queue = st.queue ++ new ∧
    st2.seen = st.seen ++ new.map Prod.fst ∧
    st2.printed = st.printed ∧
    (new.map fun x => 1 + astSize x.2).sum < n ∧
    (st.seen.Nodup → st2.seen.Nodup)

/-- Claim C5: converting a `DefinitionId` to a `Variable` yields that id with no
attached definition handle; converting a `Definition` to a `Variable` yields
`definition_id = d.variable` with a handle to `Ast::Definition(d)` itself; and
both conversions establish the documented invariant that a present handle
points at a `Definition` node binding the variable's own id. -/
theorem variable_conversions_establish_invariant :
    (∀ id : DefinitionId,
      (Variable.fromDefinitionId id).definition_id = id ∧
      (Variable.fromDefinitionId id).definition = none ∧
      VariableInvariant (Variable.fromDefinitionId id)) ∧
    (∀ d : Definition,
      (DefinitionInfo.fromDefinition d).definition_id = d.var ∧
      (DefinitionInfo.fromDefinition d).definition = some (Ast.definition d) ∧
      VariableInvariant (DefinitionInfo.fromDefinition d)) := by
  constructor
  · intro id
    refine ⟨rfl, rfl, ?_⟩
    intro a ha
    simp [Variable.fromDefinitionId, DefinitionInfo.definition] at ha
  · intro d
    refine ⟨rfl, rfl, ?_⟩
    intro a ha
    simp only [DefinitionInfo.fromDefinition, DefinitionInfo.definition,
      Option.some.injEq] at ha
    exact ⟨d, ha.symm, rfl⟩

/-- Claim C8, counterexample: it is not the case that every `If` node carries an
else expression — the `otherwise` field is `Option`al, and an `If` value with
`otherwise = None` exists. -/
theorem if_else_always_present_counterexample :
    ¬ ∀ i : If, i.otherwise.isSome := by
  intro h
  have := h (If.mk (Ast.literal .unit) (Ast.literal .unit) none)
  simp [If.otherwise] at this

/-- Claim C8, amended: every `If` node carries a condition expression, a then
expression, and an *optional* else expression, and the else expression may be
absent. -/
theorem if_is_ternary_with_optional_else :
    (∀ i : If, ∃ c t o, i = If.mk c t o ∧ i.condition = c ∧ i.then_ = t ∧
      i.otherwise = o) ∧
    (∃ i : If, i.otherwise = none) := by
  constructor
  · intro i
    cases i with
    | mk c t o => exact ⟨c, t, o, rfl, rfl, rfl, rfl⟩
  · exact ⟨If.mk (Ast.literal .unit) (Ast.literal .unit) none, rfl⟩

/-- Claim C9: `Literal::Float` stores the raw 64-bit bit pattern, so equality
and the derived ordering compare the payloads as integers: two float literals
are equal iff their bit patterns are equal as integers, ordering on floats is
integer ordering of the bit patterns, two NaN literals with the same bit
pattern (0x7ff8000000000000) compare equal, and +0.0 (bits 0) and -0.0
(bits 0x8000000000000000) compare unequal. -/
theorem float_literal_equality_is_bit_pattern_equality :
    (∀ a b : Nat, (Literal.float a = Literal.float b) ↔ a = b) ∧
    (∀ a b : Nat, Literal.lt (.float a) (.float b) = decide (a < b)) ∧
    (Literal.float 0x7ff8000000000000 = Literal.float 0x7ff8000000000000) ∧
    (Literal.float 0 ≠ Literal.float 0x8000000000000000) := by
  refine ⟨?_, ?_, rfl, ?_⟩
  · intro a b
    simp
  · intro a b
    rfl
  · intro h
    simp at h

theorem mem_distinctConsts (c : U32) (l : List U32) :
    c ∈ distinctConsts l ↔ c ∈ l := by
  have aux : ∀ (l acc : List U32),
      c ∈ l.foldl (fun acc c => if c ∈ acc then acc else acc ++ [c]) acc ↔
        c ∈ acc ∨ c ∈ l := by
    intro l
    induction l with
    | nil => intro acc; simp
    | cons a l ih =>
      intro acc
      simp only [List.foldl_cons]
      by_cases h : a ∈ acc
      · rw [if_pos h, ih]
        simp only [List.mem_cons]
        constructor
        · rintro (hc | hc)
          · exact Or.inl hc
          · exact Or.inr (Or.inr hc)
        · rintro (hc | (rfl | hc))
          · exact Or.inl hc
          · exact Or.inl h
          · exact Or.inr hc
      · rw [if_neg h, ih]
        simp only [List.mem_append, List.mem_cons, List.mem_singleton]
        tauto
  simpa using aux l []

theorem mem_colConsts_iff {j : Nat} {rows : List (Nat × Pat)} {c : U32} :
    c ∈ colConsts j rows ↔ ∃ r ∈ rows, patConstraint j r.2 = some c := by
  simp [colConsts, mem_distinctConsts, List.mem_filterMap]

theorem colConsts_isEmpty_iff {j : Nat} {rows : List (Nat × Pat)} :
    (colConsts j rows).isEmpty ↔ ∀ r ∈ rows, patConstraint j r.2 = none := by
  rw [List.isEmpty_iff, List.eq_nil_iff_forall_not_mem]
  constructor
  · intro h r hr
    cases hc : patConstraint j r.2 with
    | none => rfl
    | some c => exact absurd (mem_colConsts_iff.mpr ⟨r, hr, hc⟩) (h c)
  · intro h c hc
    obtain ⟨r, hr, hrc⟩ := mem_colConsts_iff.mp hc
    rw [h r hr] at hrc
    cases hrc

theorem patConstraint_lt_length {j : Nat} {p : Pat} {c : U32}
    (h : patConstraint j p = some c) : j < p.length := by
  by_contra hj
  push_neg at hj
  rw [patConstraint, List.getElem?_eq_none hj] at h
  cases h

theorem rowMatches_iff {v : List U32} {p : Pat} :
    rowMatches v p = true ↔
      ∀ j c, patConstraint j p = some c → v[j]? = some c := by
  unfold rowMatches
  rw [List.all_eq_true]
  constructor
  · intro h j c hc
    have hj : j < p.length := patConstraint_lt_length hc
    have hh := h j (List.mem_range.mpr hj)
    rw [hc] at hh
    simpa using hh
  · intro h j hj
    cases hc : patConstraint j p with
    | none => simp [hc]
    | some c => simp [hc, h j c hc]

theorem firstMatch_filter {v : List U32} (q : Nat × Pat → Bool)
    (rows : List (Nat × Pat))
    (h : ∀ r ∈ rows, rowMatches v r.2 = true → q r = true) :
    firstMatch v (rows.filter q) = firstMatch v rows := by
  induction rows with
  | nil => rfl
  | cons r rows ih =>
    have ih' := ih fun r hr => h r (List.mem_cons_of_mem _ hr)
    by_cases hq : q r = true
    · rw [List.filter_cons_of_pos hq]
      unfold firstMatch
      cases hm : rowMatches v r.2 with
      | true => simp [List.find?, hm]
      | false =>
        simp only [List.find?, hm]
        exact ih'
    · have hm : rowMatches v r.2 = false := by
        cases hmm : rowMatches v r.2 with
        | true => exact absurd (h r (List.mem_cons_self _ _) hmm) hq
        | false => rfl
      rw [List.filter_cons_of_neg (by simp [hq])]
      unfold firstMatch
      simp only [List.find?, hm]
      exact ih'

theorem firstMatch_none {v : List U32} {rows : List (Nat × Pat)}
    (h : ∀ r ∈ rows, rowMatches v r.2 = false) :
    firstMatch v rows = none := by
  unfold firstMatch
  rw [List.find?_eq_none.mpr]
  · rfl
  · intro r hr
    simp [h r hr]

theorem firstMatch_all {v : List U32} {rows : List (Nat × Pat)}
    (h : ∀ r ∈ rows, rowMatches v r.2 = true) :
    firstMatch v rows = rows.head?.map Prod.fst := by
  cases rows with
  | nil => rfl
  | cons r rows =>
    unfold firstMatch
    simp [List.find?, h r (List.mem_cons_self _ _)]

theorem selectCase_map_of_mem {d : U32} (f : U32 → DTree)
    {consts : List U32} (hd : d ∈ consts) :
    DTree.selectCase d (consts.map fun c => (c, f c)) = some (f d) := by
  induction consts with
  | nil => cases hd
  | cons c consts ih =>
    simp only [List.map_cons, DTree.selectCase]
    by_cases hc : c = d
    · subst hc
      simp
    · rw [if_neg hc]
      rcases List.mem_cons.mp hd with rfl | hd'
      · exact absurd rfl hc
      · exact ih hd'

theorem selectCase_map_of_not_mem {d : U32} (f : U32 → DTree)
    {consts : List U32} (hd : d ∉ consts) :
    DTree.selectCase d (consts.map fun c => (c, f c)) = none := by
  induction consts with
  | nil => rfl
  | cons c consts ih =>
    simp only [List.map_cons, DTree.selectCase]
    rw [if_neg fun h => hd (by rw [← h]; exact List.mem_cons_self _ _)]
    exact ih fun h => hd (List.mem_cons_of_mem _ h)

theorem compileAux_eval (fuel : Nat) :
    ∀ (efuel j : Nat) (rows : List (Nat × Pat)) (v : List U32),
      fuel + 1 ≤ efuel →
      rows ≠ [] →
      (∀ r ∈ rows, r.2.length ≤ v.length) →
      v.length ≤ j + fuel →
      (∀ r ∈ rows, ∀ j' < j, ∀ c, patConstraint j' r.2 = some c → v[j']? = some c) →
      DTree.eval efuel v (compileAux fuel j rows) = firstMatch v rows := by
  induction fuel with
  | zero =>
    intro efuel j rows v hef hne hlen hfuel hcons
    obtain ⟨e, rfl⟩ : ∃ e, efuel = e + 1 := ⟨efuel - 1, by omega⟩
    have hall : ∀ r ∈ rows, rowMatches v r.2 = true := by
      intro r hr
      rw [rowMatches_iff]
      intro j' c hc
      have hj' : j' < r.2.length := patConstraint_lt_length hc
      exact hcons r hr j'
        (lt_of_lt_of_le hj' (le_trans (hlen r hr) (by omega))) c hc
    rw [firstMatch_all hall]
    cases rows with
    | nil => exact absurd rfl hne
    | cons r rows => simp [compileAux, DTree.eval]
  | succ fuel ih =>
    intro efuel j rows v hef hne hlen hfuel hcons
    rw [compileAux]
    by_cases hc : (colConsts j rows).isEmpty
    · rw [if_pos hc]
      apply ih efuel (j + 1) rows v (by omega) hne hlen (by omega)
      intro r hr j' hj' c hcc
      rcases Nat.lt_succ_iff_lt_or_eq.mp hj' with h | h
      · exact hcons r hr j' h c hcc
      · subst h
        rw [colConsts_isEmpty_iff.mp hc r hr] at hcc
        cases hcc
    · rw [if_neg hc]
      obtain ⟨e, rfl⟩ : ∃ e, efuel = e + 1 := ⟨efuel - 1, by omega⟩
      have hjlt : j < v.length := by
        have hcne : colConsts j rows ≠ [] := by
          simpa [List.isEmpty_iff] using hc
        obtain ⟨c0, hc0⟩ := List.exists_mem_of_ne_nil _ hcne
        obtain ⟨r, hr, hrc⟩ := mem_colConsts_iff.mp hc0
        exact lt_of_lt_of_le (patConstraint_lt_length hrc) (hlen r hr)
      obtain ⟨d, hd⟩ : ∃ d, v[j]? = some d :=
        ⟨_, List.getElem?_eq_getElem hjlt⟩
      simp only [DTree.eval, hd]
      by_cases hdm : d ∈ colConsts j rows
      · rw [selectCase_map_of_mem _ hdm]
        have hspec_sub : ∀ r ∈ specRows j d rows, r ∈ rows := by
          intro r hr
          exact (List.mem_filter.mp hr).1
        have hspec_ne : specRows j d rows ≠ [] := by
          obtain ⟨r, hr, hrc⟩ := mem_colConsts_iff.mp hdm
          refine List.ne_nil_of_mem (a := r) (List.mem_filter.mpr ⟨hr, ?_⟩)
          simp [hrc]
        have heval := ih e (j + 1) (specRows j d rows) v (by omega) hspec_ne
          (fun r hr => hlen r (hspec_sub r hr)) (by omega) ?_
        · refine Eq.trans heval ?_
          rw [specRows, firstMatch_filter]
          intro r hr hm
          cases hcc : patConstraint j r.2 with
          | none => simp
          | some c' =>
            have hv := rowMatches_iff.mp hm j c' hcc
            rw [hd] at hv
            simp only [Option.some.injEq] at hv
            simp [hv]
        · intro r hr j' hj' c hcc
          rcases Nat.lt_succ_iff_lt_or_eq.mp hj' with h | h
          · exact hcons r (hspec_sub r hr) j' h c hcc
          · subst h
            have hq := (List.mem_filter.mp hr).2
            rw [hcc] at hq
            have hcd : c = d := by simpa using hq
            rw [hcd, hd]
      · rw [selectCase_map_of_not_mem _ hdm]
        by_cases hdef : (defaultRows j rows).isEmpty
        · rw [if_pos hdef]
          have hnomatch : ∀ r ∈ rows, rowMatches v r.2 = false := by
            intro r hr
            cases hm : rowMatches v r.2 with
            | false => rfl
            | true =>
              exfalso
              cases hcc : patConstraint j r.2 with
              | none =>
                have hmem : r ∈ defaultRows j rows :=
                  List.mem_filter.mpr ⟨hr, by simp [hcc]⟩
                rw [List.isEmpty_iff.mp hdef] at hmem
                cases hmem
              | some c' =>
                have hv := rowMatches_iff.mp hm j c' hcc
                rw [hd] at hv
                have hcd : d = c' := by simpa using hv
                exact hdm (by rw [hcd]; exact mem_colConsts_iff.mpr ⟨r, hr, hcc⟩)
          rw [firstMatch_none hnomatch]
        · rw [if_neg hdef]
          have hdef_sub : ∀ r ∈ defaultRows j rows, r ∈ rows := by
            intro r hr
            exact (List.mem_filter.mp hr).1
          have hdef_ne : defaultRows j rows ≠ [] := by
            simpa [List.isEmpty_iff] using hdef
          have heval := ih e (j + 1) (defaultRows j rows) v (by omega) hdef_ne
            (fun r hr => hlen r (hdef_sub r hr)) (by omega) ?_
          · refine Eq.trans heval ?_
            rw [defaultRows, firstMatch_filter]
            intro r hr hm
            cases hcc : patConstraint j r.2 with
            | none => simp [hcc]
            | some c' =>
              exfalso
              have hv := rowMatches_iff.mp hm j c' hcc
              rw [hd] at hv
              have hcd : d = c' := by simpa using hv
              exact hdm (by rw [hcd]; exact mem_colConsts_iff.mpr ⟨r, hr, hcc⟩)
          · intro r hr j' hj' c hcc
            rcases Nat.lt_succ_iff_lt_or_eq.mp hj' with h | h
            · exact hcons r (hdef_sub r hr) j' h c hcc
            · subst h
              have hq := (List.mem_filter.mp hr).2
              rw [hcc] at hq
              cases hq

theorem enumFrom_find?_eq_findIdx? {α : Type} (p : α → Bool) (l : List α) :
    ∀ n, ((List.enumFrom n l).find? fun r => p r.2).map Prod.fst =
      List.findIdx? p l n := by
  induction l with
  | nil => intro n; rfl
  | cons a l ih =>
    intro n
    by_cases hp : p a
    · simp [List.enumFrom, List.find?, hp, List.findIdx?_cons]
    · simp [List.enumFrom, List.find?, hp, List.findIdx?_cons, ih (n + 1)]

theorem mem_enum_snd {α : Type} {r : Nat × α} {l : List α}
    (h : r ∈ l.enum) : r.1 < l.length ∧ r.2 ∈ l := by
  obtain ⟨k, x⟩ := r
  have hm := List.mem_enumFrom (by simpa [List.enum] using h)
  refine ⟨by omega, ?_⟩
  rw [hm.2.2]
  exact List.getElem_mem _

/-- Claim C1: for every match (given as its pattern rows in source order) and
every scrutinee, evaluating the compiled decision tree — following `Switch`
cases by exact discriminant value, falling back to `else_case`, passing
through `Definition` bindings — reaches the leaf holding the index of the
first pattern, in source order, that matches the scrutinee (and fails to
reach a leaf exactly when no pattern matches). -/
theorem decision_tree_reaches_first_matching_branch
    (pats : List Pat) (v : List U32) (efuel : Nat)
    (hne : pats ≠ [])
    (hlen : ∀ p ∈ pats, p.length ≤ v.length)
    (hfuel : v.length + 1 ≤ efuel) :
    DTree.eval efuel v (compileMatch v.length pats) =
      pats.findIdx? (rowMatches v) := by
  have h := compileAux_eval v.length efuel 0 pats.enum v hfuel
    (fun he => hne (List.enum_eq_nil.mp he))
    (fun r hr => hlen r.2 (mem_enum_snd hr).2)
    (by omega)
    (fun r _ j' hj' => absurd hj' (Nat.not_lt_zero _))
  rw [compileMatch, h, firstMatch]
  rw [show pats.enum = List.enumFrom 0 pats from rfl]
  exact enumFrom_find?_eq_findIdx? _ pats 0

/-- Witness for C1 on the spec's section-8 scenario with scrutinee
`(Some, None)`: the second row is the first match. -/
theorem decision_tree_reaches_first_matching_branch_witness :
    ([[some (u32 0), none], [none, some (u32 0)],
        [some (u32 1), some (u32 1)]] : List Pat) ≠ [] ∧
    (∀ p ∈ ([[some (u32 0), none], [none, some (u32 0)],
        [some (u32 1), some (u32 1)]] : List Pat),
      p.length ≤ ([u32 1, u32 0] : List U32).length) ∧
    ([u32 1, u32 0] : List U32).length + 1 ≤ 3 ∧
    DTree.eval 3 [u32 1, u32 0]
      (compileMatch ([u32 1, u32 0] : List U32).length
        [[some (u32 0), none], [none, some (u32 0)],
          [some (u32 1), some (u32 1)]]) =
      ([[some (u32 0), none], [none, some (u32 0)],
          [some (u32 1), some (u32 1)]] : List Pat).findIdx?
        (rowMatches [u32 1, u32 0]) :=
  ⟨by decide, by decide, by decide,
    decision_tree_reaches_first_matching_branch
      [[some (u32 0), none], [none, some (u32 0)],
        [some (u32 1), some (u32 1)]]
      [u32 1, u32 0] 3 (by decide) (by decide) (by decide)⟩

theorem compileAux_leafIn (fuel : Nat) :
    ∀ (j : Nat) (rows : List (Nat × Pat)) (i : Nat),
      rows ≠ [] → DTree.LeafIn i (compileAux fuel j rows) →
      ∃ r ∈ rows, r.1 = i := by
  induction fuel with
  | zero =>
    intro j rows i hne hin
    cases rows with
    | nil => exact absurd rfl hne
    | cons r rows =>
      rw [compileAux] at hin
      cases hin
      exact ⟨r, List.mem_cons_self _ _, rfl⟩
  | succ fuel ih =>
    intro j rows i hne hin
    rw [compileAux] at hin
    by_cases hc : (colConsts j rows).isEmpty
    · rw [if_pos hc] at hin
      exact ih (j + 1) rows i hne hin
    · rw [if_neg hc] at hin
      cases hin with
      | inCase hmem hint =>
        obtain ⟨c0, hc0, heq⟩ := List.mem_map.mp hmem
        injection heq with h1 h2
        subst h1
        subst h2
        have hspec_ne : specRows j c0 rows ≠ [] := by
          obtain ⟨r, hr, hrc⟩ := mem_colConsts_iff.mp hc0
          refine List.ne_nil_of_mem (a := r) (List.mem_filter.mpr ⟨hr, ?_⟩)
          simp [hrc]
        obtain ⟨r, hr, hri⟩ := ih (j + 1) (specRows j c0 rows) i hspec_ne hint
        exact ⟨r, (List.mem_filter.mp hr).1, hri⟩
      | inElse hels hint =>
        by_cases hdef : (defaultRows j rows).isEmpty
        · rw [if_pos hdef] at hels
          cases hels
        · rw [if_neg hdef] at hels
          cases hels
          have hdef_ne : defaultRows j rows ≠ [] := by
            simpa [List.isEmpty_iff] using hdef
          obtain ⟨r, hr, hri⟩ := ih (j + 1) (defaultRows j rows) i hdef_ne hint
          exact ⟨r, (List.mem_filter.mp hr).1, hri⟩

/-- Claim C4: every `Leaf(i)` occurring anywhere in the decision tree built
for a match is a valid index into the match's branch list (branch `k` being
the `k`-th pattern row); the same index may well occur at several positions. -/
theorem match_leaf_indices_valid (branches : List Ast) (pats : List Pat)
    (width : Nat) (hne : pats ≠ []) (hlen : pats.length = branches.length) :
    ∀ i, DTree.LeafIn i (compileMatch width pats) → i < branches.length := by
  intro i hin
  obtain ⟨r, hr, hri⟩ :=
    compileAux_leafIn width 0 pats.enum i
      (fun he => hne (List.enum_eq_nil.mp he)) hin
  have := (mem_enum_snd hr).1
  omega

/-- Witness for C4: in the two-branch match `[[Some 0], [_]]`, the leaf index
1 reached through the else path is a valid branch index. -/
theorem match_leaf_indices_valid_witness :
    ([[some (u32 0)], [none]] : List Pat) ≠ [] ∧
    ([[some (u32 0)], [none]] : List Pat).length =
      ([Ast.literal .unit, Ast.literal .unit] : List Ast).length ∧
    DTree.LeafIn 1 (compileMatch 1 [[some (u32 0)], [none]]) ∧
    1 < ([Ast.literal .unit, Ast.literal .unit] : List Ast).length :=
  ⟨by decide, by decide, DTree.LeafIn.inElse rfl DTree.LeafIn.here,
    match_leaf_indices_valid [Ast.literal .unit, Ast.literal .unit]
      [[some (u32 0)], [none]] 1 (by decide) (by decide) 1
      (DTree.LeafIn.inElse rfl DTree.LeafIn.here)⟩

/-- Claim C3, counterexample: in the spec's own scenario — two rows selecting
branch index 0 with no further discriminant tests — the compiled tree holds
`Leaf 0` at four distinct positions (four separate copies), not one shared
leaf node: `DecisionTree` owns its children (`Box`, not `Rc`), so a shared
node is not representable and the builder duplicates the leaf per path. -/
theorem shared_leaf_is_duplicated_counterexample :
    DTree.countLeaf 3 0 (compileAux 2 0 sharedLeafRows) = 4 ∧
    DTree.countLeaf 3 0 (compileAux 2 0 sharedLeafRows) ≠ 1 := by
  constructor
  · rfl
  · decide

/-- Claim C3, amended: rows selecting the identical branch index with no
further discriminant tests compile to paths that each terminate in a `Leaf`
carrying that same index — equal `Leaf(i)` values sharing the branch body
through the index — but as separate duplicated copies at each position (the
tree is a tree of owned nodes, not a DAG with one shared leaf): here both the
`(None, Some)` path and the `(Some, None)` path reach branch 0 through
distinct `Leaf 0` copies. -/
theorem shared_leaf_index_amended :
    compileAux 2 0 sharedLeafRows = sharedLeafTree ∧
    DTree.eval 3 [u32 0, u32 1] sharedLeafTree = some 0 ∧
    DTree.eval 3 [u32 1, u32 0] sharedLeafTree = some 0 ∧
    DTree.countLeaf 3 0 sharedLeafTree = 4 := by
  refine ⟨rfl, rfl, rfl, rfl⟩

/-- Claim C10: in every `DecisionTree::Switch` node the case labels are `u32`
values — each label is below `2^32`, exact-value dispatch cannot succeed for a
discriminant value outside `[0, 2^32)`, and within one case list an earlier
case with a given label shadows any later case carrying the same label. -/
theorem switch_case_labels_are_u32 :
    (∀ (t : DecisionTree) (lc : U32 × DecisionTree),
      lc ∈ t.switchCases → lc.1.val < 2 ^ 32) ∧
    (∀ (d : Nat) (cases : List (U32 × DecisionTree)),
      2 ^ 32 ≤ d → DecisionTree.findCase d cases = none) ∧
    (∀ (l : U32) (t : DecisionTree) (rest : List (U32 × DecisionTree)),
      DecisionTree.findCase l.val ((l, t) :: rest) = some t) := by
  refine ⟨?_, ?_, ?_⟩
  · intro t lc _
    exact lc.1.isLt
  · intro d cases hd
    induction cases with
    | nil => rfl
    | cons c rest ih =>
      have hne : (c.1.val == d) = false := by
        rw [beq_eq_false_iff_ne]
        exact Nat.ne_of_lt (lt_of_lt_of_le c.1.isLt hd)
      unfold DecisionTree.findCase at ih ⊢
      simp only [List.find?, hne]
      exact ih
  · intro l t rest
    simp [DecisionTree.findCase, List.find?]

/-- Witness for C10 at concrete case lists: label `3` is in range, dispatch on
`2^32` finds nothing, and the first of two cases labelled `3` wins. -/
theorem switch_case_labels_are_u32_witness :
    ((u32 3, DecisionTree.leaf 0) : U32 × DecisionTree).1.val < 2 ^ 32 ∧
    DecisionTree.findCase (2 ^ 32) [(u32 3, DecisionTree.leaf 0)] = none ∧
    DecisionTree.findCase (u32 3).val
      [(u32 3, DecisionTree.leaf 0), (u32 3, DecisionTree.leaf 1)] =
      some (DecisionTree.leaf 0) :=
  ⟨switch_case_labels_are_u32.1
      (DecisionTree.switch (Ast.literal .unit) [(u32 3, DecisionTree.leaf 0)] none)
      (u32 3, DecisionTree.leaf 0) (by simp [DecisionTree.switchCases]),
    switch_case_labels_are_u32.2.1 (2 ^ 32) [(u32 3, DecisionTree.leaf 0)]
      (Nat.le_refl _),
    switch_case_labels_are_u32.2.2 (u32 3) (DecisionTree.leaf 0)
      [(u32 3, DecisionTree.leaf 1)]⟩

theorem memoLookup_eq_none_iff {k : MemoKey}
    {m : List (MemoKey × DefinitionId)} :
    memoLookup k m = none ↔ k ∉ m.map Prod.fst := by
  induction m with
  | nil => simp [memoLookup]
  | cons e rest ih =>
    obtain ⟨k', id⟩ := e
    by_cases hk : k' = k
    · subst hk
      simp [memoLookup]
    · simp [memoLookup, hk, ih, Ne.symm hk]

theorem memoLookup_append_left {k : MemoKey} {id : DefinitionId}
    {m ext : List (MemoKey × DefinitionId)}
    (h : memoLookup k m = some id) :
    memoLookup k (m ++ ext) = some id := by
  induction m with
  | nil => cases h
  | cons e rest ih =>
    obtain ⟨k', i⟩ := e
    by_cases hk : k' = k
    · subst hk
      rw [memoLookup] at h
      rw [List.cons_append, memoLookup]
      simpa using h
    · rw [memoLookup, if_neg hk] at h
      rw [List.cons_append, memoLookup, if_neg hk]
      exact ih h

theorem memoLookup_append_new {k : MemoKey} {id : DefinitionId}
    {m : List (MemoKey × DefinitionId)} (h : k ∉ m.map Prod.fst) :
    memoLookup k (m ++ [(k, id)]) = some id := by
  induction m with
  | nil => simp [memoLookup]
  | cons e rest ih =>
    obtain ⟨k', i⟩ := e
    simp only [List.map_cons, List.mem_cons] at h
    push_neg at h
    rw [List.cons_append, memoLookup, if_neg (fun he => h.1 he.symm)]
    exact ih h.2

theorem memoLookup_mem {k : MemoKey} {id : DefinitionId}
    {m : List (MemoKey × DefinitionId)} (h : memoLookup k m = some id) :
    (k, id) ∈ m := by
  induction m with
  | nil => cases h
  | cons e rest ih =>
    obtain ⟨k', i⟩ := e
    by_cases hk : k' = k
    · subst hk
      rw [memoLookup, if_pos rfl] at h
      cases h
      exact List.mem_cons_self _ _
    · rw [memoLookup, if_neg hk] at h
      exact List.mem_cons_of_mem _ (ih h)

theorem rewriteExpr_stable {m ext : List (MemoKey × DefinitionId)} :
    ∀ {e : SExpr}, (∀ k ∈ callKeys e, memoLookup k m ≠ none) →
      rewriteExpr (m ++ ext) e = rewriteExpr m e := by
  intro e
  induction e with
  | lit l => intro _; rfl
  | genericCall f targs =>
    intro h
    have hk := h (f, targs) (List.mem_singleton.mpr rfl)
    obtain ⟨id, hid⟩ : ∃ id, memoLookup (f, targs) m = some id := by
      cases hm : memoLookup (f, targs) m with
      | none => exact absurd hm hk
      | some id => exact ⟨id, rfl⟩
    rw [rewriteExpr, rewriteExpr, hid, memoLookup_append_left hid]
  | lam t b ih =>
    intro h
    rw [rewriteExpr, rewriteExpr, ih h]
  | app f a ihf iha =>
    intro h
    rw [rewriteExpr, rewriteExpr,
      ihf fun k hk => h k (List.mem_append_left _ hk),
      iha fun k hk => h k (List.mem_append_right _ hk)]

theorem mem_newKeys {k : MemoKey} :
    ∀ {e : SExpr} {seen : List MemoKey},
      k ∈ newKeys seen e ↔ (k ∈ callKeys e ∧ k ∉ seen) := by
  intro e
  induction e with
  | lit l => intro seen; simp [newKeys, callKeys]
  | genericCall f targs =>
    intro seen
    by_cases hs : (f, targs) ∈ seen
    · simp only [newKeys, if_pos hs, callKeys]
      constructor
      · intro h; cases h
      · rintro ⟨h1, h2⟩
        rw [List.mem_singleton] at h1
        exact absurd (h1 ▸ hs) h2
    · simp only [newKeys, if_neg hs, callKeys]
      constructor
      · intro h
        rw [List.mem_singleton] at h
        exact ⟨List.mem_singleton.mpr h, h ▸ hs⟩
      · rintro ⟨h1, _⟩
        exact h1
  | lam t b ih => intro seen; exact ih
  | app f a ihf iha =>
    intro seen
    simp only [newKeys, callKeys, List.mem_append]
    constructor
    · rintro (h | h)
      · obtain ⟨h1, h2⟩ := ihf.mp h
        exact ⟨Or.inl h1, h2⟩
      · obtain ⟨h1, h2⟩ := iha.mp h
        simp only [List.mem_append] at h2
        push_neg at h2
        exact ⟨Or.inr h1, h2.1⟩
    · rintro ⟨h1 | h1, h2⟩
      · exact Or.inl (ihf.mpr ⟨h1, h2⟩)
      · by_cases hf : k ∈ newKeys seen f
        · exact Or.inl hf
        · refine Or.inr (iha.mpr ⟨h1, ?_⟩)
          simp only [List.mem_append]
          push_neg
          exact ⟨h2, hf⟩

theorem nodup_seen_newKeys :
    ∀ (e : SExpr) (seen : List MemoKey), seen.Nodup →
      (seen ++ newKeys seen e).Nodup := by
  intro e
  induction e with
  | lit l => intro seen h; simpa [newKeys] using h
  | genericCall f targs =>
    intro seen h
    by_cases hs : (f, targs) ∈ seen
    · simpa [newKeys, hs] using h
    · rw [newKeys, if_neg hs]
      rw [List.nodup_append]
      exact ⟨h, List.nodup_singleton _, fun a ha hb =>
        hs ((List.mem_singleton.mp hb) ▸ ha)⟩
  | lam t b ih => intro seen h; exact ih seen h
  | app f a ihf iha =>
    intro seen h
    have h1 := ihf seen h
    have h2 := iha (seen ++ newKeys seen f) h1
    rw [newKeys, ← List.append_assoc]
    exact h2

theorem MType.subst_concrete {args : List MType} {arity : Nat}
    (hlen : args.length = arity)
    (hargs : ∀ a ∈ args, a.isConcrete = true) :
    ∀ {t : MType}, t.tvarsBelow arity = true →
      (t.subst args).isConcrete = true := by
  intro t
  induction t with
  | int => intro _; rfl
  | bool => intro _; rfl
  | tvar n =>
    intro h
    rw [MType.tvarsBelow, decide_eq_true_iff] at h
    rw [MType.subst]
    have hn : n < args.length := by omega
    rw [List.getElem?_eq_getElem hn]
    exact hargs _ (List.getElem_mem _)
  | fn a r iha ihr =>
    intro h
    rw [MType.tvarsBelow, Bool.and_eq_true] at h
    rw [MType.subst, MType.isConcrete, iha h.1, ihr h.2]
    rfl

theorem MExpr.substExpr_concrete {args : List MType} {arity : Nat}
    (hlen : args.length = arity)
    (hargs : ∀ a ∈ args, a.isConcrete = true) :
    ∀ {b : MExpr}, b.typesBelow arity = true →
      (b.subst args).isConcrete = true := by
  intro b
  induction b with
  | lit l => intro _; rfl
  | concreteCall id => intro _; rfl
  | lam t b ih =>
    intro h
    rw [MExpr.typesBelow, Bool.and_eq_true] at h
    rw [MExpr.subst, MExpr.isConcrete,
      MType.subst_concrete hlen hargs h.1, ih h.2]
    rfl
  | app f a ihf iha =>
    intro h
    rw [MExpr.typesBelow, Bool.and_eq_true] at h
    rw [MExpr.subst, MExpr.isConcrete, ihf h.1, iha h.2]
    rfl

theorem monoExpr_master (gens : List GenDef)
    (hgens : ∀ g ∈ gens, g.body.typesBelow g.arity = true) :
    ∀ (e : SExpr) (st : MonoState),
      (∀ k ∈ callKeys e, CallWF gens k) →
      MonoInv gens st →
      MonoInv gens (monoExpr gens e st).2 ∧
      (monoExpr gens e st).2.memo.map Prod.fst =
        st.memo.map Prod.fst ++ newKeys (st.memo.map Prod.fst) e ∧
      (∃ ext, (monoExpr gens e st).2.memo = st.memo ++ ext) ∧
      (∃ dext, (monoExpr gens e st).2.defs = st.defs ++ dext) ∧
      (∀ k ∈ callKeys e, memoLookup k (monoExpr gens e st).2.memo ≠ none) ∧
      (monoExpr gens e st).1 = rewriteExpr (monoExpr gens e st).2.memo e := by
  intro e
  induction e with
  | lit l =>
    intro st hc hinv
    exact ⟨hinv, by simp [monoExpr, newKeys], ⟨[], by simp [monoExpr]⟩,
      ⟨[], by simp [monoExpr]⟩, by simp [callKeys], rfl⟩
  | genericCall f targs =>
    intro st hc hinv
    cases hk : memoLookup (f, targs) st.memo with
    | some id =>
      have hmono : monoExpr gens (.genericCall f targs) st =
          (.concreteCall id, st) := by
        rw [monoExpr, hk]
      rw [hmono]
      have hmemk : (f, targs) ∈ st.memo.map Prod.fst := by
        by_contra hcon
        rw [← memoLookup_eq_none_iff] at hcon
        rw [hk] at hcon
        cases hcon
      refine ⟨hinv, ?_, ⟨[], by simp⟩, ⟨[], by simp⟩, ?_, ?_⟩
      · simp [newKeys, hmemk]
      · intro k hkk
        rw [callKeys, List.mem_singleton] at hkk
        subst hkk
        rw [hk]
        exact Option.noConfusion
      · simp [rewriteExpr, hk]
    | none =>
      have hnotmem : (f, targs) ∉ st.memo.map Prod.fst :=
        memoLookup_eq_none_iff.mp hk
      have hmono : monoExpr gens (.genericCall f targs) st =
          (.concreteCall ⟨st.next⟩,
            { memo := st.memo ++ [((f, targs), ⟨st.next⟩)],
              defs := st.defs ++
                [(⟨st.next⟩,
                  match gens[f]? with
                  | some g => MExpr.subst targs g.body
                  | none => .lit .unit)],
              next := st.next + 1 }) := by
        rw [monoExpr, hk]
      rw [hmono]
      obtain ⟨g, hg, hglen, hgconc⟩ :=
        hc (f, targs) (List.mem_singleton.mpr rfl)
      have hgmem : g ∈ gens := by
        obtain ⟨hlt, hge⟩ := List.getElem?_eq_some.mp hg
        exact hge ▸ List.getElem_mem _
      have hbody :
          (match gens[f]? with
            | some g => MExpr.subst targs g.body
            | none => (.lit .unit : MExpr)) = MExpr.subst targs g.body := by
        rw [hg]
      have hlookup_new :
          memoLookup (f, targs) (st.memo ++ [((f, targs), ⟨st.next⟩)]) =
            some ⟨st.next⟩ := memoLookup_append_new hnotmem
      refine ⟨⟨?_, ?_, ?_, ?_⟩, ?_, ⟨_, rfl⟩, ⟨_, rfl⟩, ?_, ?_⟩
      · simp only [List.map_append, List.map_cons, List.map_nil]
        rw [List.nodup_append]
        exact ⟨hinv.1, List.nodup_singleton _, fun a ha hb =>
          hnotmem ((List.mem_singleton.mp hb) ▸ ha)⟩
      · simp only [List.length_append, List.length_cons, List.length_nil]
        rw [hinv.2.1]
      · intro k id hmem
        rcases List.mem_append.mp hmem with hmem | hmem
        · obtain ⟨body, hb1, hb2⟩ := hinv.2.2.1 k id hmem
          exact ⟨body, List.mem_append_left _ hb1, hb2⟩
        · rw [List.mem_singleton] at hmem
          injection hmem with hmk hmi
          subst hmk
          subst hmi
          refine ⟨MExpr.subst targs g.body,
            List.mem_append_right _ (by rw [hbody]; exact List.mem_singleton.mpr rfl), ?_⟩
          intro g' hg'
          rw [hg] at hg'
          injection hg' with hgg
          rw [hgg]
      · intro d hd
        rcases List.mem_append.mp hd with hd | hd
        · exact hinv.2.2.2 d hd
        · rw [List.mem_singleton] at hd
          subst hd
          simp only
          rw [hbody]
          exact MExpr.substExpr_concrete hglen hgconc (hgens g hgmem)
      · simp only [List.map_append, List.map_cons, List.map_nil]
        rw [newKeys, if_neg hnotmem]
      · intro k hkk
        rw [callKeys, List.mem_singleton] at hkk
        subst hkk
        rw [hlookup_new]
        exact Option.noConfusion
      · simp [rewriteExpr, hlookup_new]
  | lam t b ih =>
    intro st hc hinv
    obtain ⟨h1, h2, h3, h4, h5, h6⟩ := ih st hc hinv
    have hmono : monoExpr gens (.lam t b) st =
        (.lam t (monoExpr gens b st).1, (monoExpr gens b st).2) := by
      rw [monoExpr]
    rw [hmono]
    exact ⟨h1, h2, h3, h4, h5, by rw [rewriteExpr, ← h6]⟩
  | app f a ihf iha =>
    intro st hc hinv
    have hcf : ∀ k ∈ callKeys f, CallWF gens k :=
      fun k hk => hc k (by rw [callKeys]; exact List.mem_append_left _ hk)
    have hca : ∀ k ∈ callKeys a, CallWF gens k :=
      fun k hk => hc k (by rw [callKeys]; exact List.mem_append_right _ hk)
    obtain ⟨hinv1, hmap1, ⟨ext1, hext1⟩, ⟨dext1, hdext1⟩, hlook1, hrw1⟩ :=
      ihf st hcf hinv
    obtain ⟨hinv2, hmap2, ⟨ext2, hext2⟩, ⟨dext2, hdext2⟩, hlook2, hrw2⟩ :=
      iha (monoExpr gens f st).2 hca hinv1
    have hmono : monoExpr gens (.app f a) st =
        (.app (monoExpr gens f st).1
          (monoExpr gens a (monoExpr gens f st).2).1,
          (monoExpr gens a (monoExpr gens f st).2).2) := by
      rw [monoExpr]
    rw [hmono]
    refine ⟨hinv2, ?_, ⟨ext1 ++ ext2, ?_⟩, ⟨dext1 ++ dext2, ?_⟩, ?_, ?_⟩
    · rw [hmap2, hmap1, newKeys, List.append_assoc]
    · rw [hext2, hext1, List.append_assoc]
    · rw [hdext2, hdext1, List.append_assoc]
    · intro k hkk
      rw [callKeys, List.mem_append] at hkk
      rcases hkk with hkk | hkk
      · have h := hlook1 k hkk
        obtain ⟨id, hid⟩ : ∃ id,
            memoLookup k (monoExpr gens f st).2.memo = some id := by
          cases hm : memoLookup k (monoExpr gens f st).2.memo with
          | none => exact absurd hm h
          | some id => exact ⟨id, rfl⟩
        rw [hext2, memoLookup_append_left hid]
        exact Option.noConfusion
      · exact hlook2 k hkk
    · rw [rewriteExpr, ← hrw2, hext2, rewriteExpr_stable hlook1, ← hrw1]

/-- Claim C2: for a well-typed program whose generic definitions are used at
N distinct concrete type-argument tuples, monomorphisation produces exactly N
concrete IR `Definition`s (one per distinct (definition, type-arguments) key:
the memo makes a repeated instantiation reuse the existing `Definition`, as
the final conjunct states explicitly), every produced `Definition` mentions
only concrete non-generic types, and every call site is rewritten to the
`DefinitionId` the memo assigns to its own concrete type arguments — the id
bound in `defs` to the substituted clone of that generic's body. -/
theorem monomorphise_distinct_instantiations (gens : List GenDef) (e : SExpr)
    (hgens : ∀ g ∈ gens, g.body.typesBelow g.arity = true)
    (hcalls : ∀ k ∈ callKeys e, CallWF gens k) :
    (monomorphise gens e).2.defs.length = (callKeys e).dedup.length ∧
    (∀ d ∈ (monomorphise gens e).2.defs, MExpr.isConcrete d.2 = true) ∧
    (monomorphise gens e).1 = rewriteExpr (monomorphise gens e).2.memo e ∧
    (∀ k ∈ callKeys e, ∃ id g,
      memoLookup k (monomorphise gens e).2.memo = some id ∧
      gens[k.1]? = some g ∧
      (id, MExpr.subst k.2 g.body) ∈ (monomorphise gens e).2.defs) ∧
    (∀ (fid : Nat) (targs : List MType) (id : DefinitionId) (st : MonoState),
      memoLookup (fid, targs) st.memo = some id →
      monoExpr gens (.genericCall fid targs) st = (.concreteCall id, st)) := by
  have hinv0 : MonoInv gens ⟨[], [], 0⟩ :=
    ⟨List.nodup_nil, rfl, fun k id h => absurd h (List.not_mem_nil _),
      fun d h => absurd h (List.not_mem_nil _)⟩
  obtain ⟨hinv, hmap, hext, hdext, hlook, hrw⟩ :=
    monoExpr_master gens hgens e ⟨[], [], 0⟩ hcalls hinv0
  refine ⟨?_, hinv.2.2.2, hrw, ?_, ?_⟩
  · have hkeys : (monoExpr gens e ⟨[], [], 0⟩).2.memo.map Prod.fst =
        newKeys [] e := by
      simpa using hmap
    have hlen2 : (monoExpr gens e ⟨[], [], 0⟩).2.memo.length =
        (newKeys ([] : List MemoKey) e).length := by
      rw [← hkeys, List.length_map]
    have hnodup1 : (newKeys ([] : List MemoKey) e).Nodup := by
      have := nodup_seen_newKeys e [] List.nodup_nil
      simpa using this
    have hperm : (newKeys ([] : List MemoKey) e).Perm ((callKeys e).dedup) :=
      (List.perm_ext_iff_of_nodup hnodup1 (List.nodup_dedup _)).mpr fun k => by
        rw [mem_newKeys, List.mem_dedup]
        simp
    rw [monomorphise, hinv.2.1, hlen2, hperm.length_eq]
  · intro k hk
    have h := hlook k hk
    obtain ⟨id, hid⟩ : ∃ id,
        memoLookup k (monomorphise gens e).2.memo = some id := by
      cases hm : memoLookup k (monomorphise gens e).2.memo with
      | none => exact absurd hm h
      | some id => exact ⟨id, rfl⟩
    obtain ⟨g, hg, hglen, hgconc⟩ := hcalls k hk
    obtain ⟨body, hb1, hb2⟩ := hinv.2.2.1 k id (memoLookup_mem hid)
    exact ⟨id, g, hid, hg, by rw [← hb2 g hg]; exact hb1⟩
  · intro fid targs id st h
    rw [monoExpr, h]

/-- Witness for C2 on the spec's concrete scenario: `id<T>` used at `Int`,
`Bool`, and `Int` again yields exactly two concrete definitions. -/
theorem monomorphise_distinct_instantiations_witness :
    (∀ g ∈ idGenDefs, g.body.typesBelow g.arity = true) ∧
    (∀ k ∈ callKeys idCalls, CallWF idGenDefs k) ∧
    (monomorphise idGenDefs idCalls).2.defs.length =
      (callKeys idCalls).dedup.length ∧
    (callKeys idCalls).dedup.length = 2 := by
  have h1 : ∀ g ∈ idGenDefs, g.body.typesBelow g.arity = true := by decide
  have h2 : ∀ k ∈ callKeys idCalls, CallWF idGenDefs k := by
    intro k hk
    rw [show callKeys idCalls =
      [(0, [.int]), (0, [.bool]), (0, [.int])] from rfl] at hk
    simp only [List.mem_cons, List.not_mem_nil, or_false] at hk
    rcases hk with rfl | rfl | rfl
    · exact ⟨⟨1, .lam (.tvar 0) (.lit .unit)⟩, rfl, rfl, by decide⟩
    · exact ⟨⟨1, .lam (.tvar 0) (.lit .unit)⟩, rfl, rfl, by decide⟩
    · exact ⟨⟨1, .lam (.tvar 0) (.lit .unit)⟩, rfl, rfl, by decide⟩
  exact ⟨h1, h2,
    (monomorphise_distinct_instantiations idGenDefs idCalls h1 h2).1,
    by decide⟩

theorem astSize_pos (a : Ast) : 0 < astSize a := by
  cases a with
  | literal l => rw [astSize]; omega
  | var v => obtain ⟨d, i⟩ := v; rw [astSize]; omega
  | lambda l => obtain ⟨args, body, typ⟩ := l; rw [astSize]; omega
  | functionCall c => obtain ⟨f, args⟩ := c; rw [astSize]; omega
  | definition d => obtain ⟨v, expr, m⟩ := d; rw [astSize]; omega
  | if_ i => obtain ⟨c, t, o⟩ := i; rw [astSize]; omega
  | match_ m => obtain ⟨branches, dtree⟩ := m; rw [astSize]; omega
  | return_ r => obtain ⟨e⟩ := r; rw [astSize]; omega
  | sequence s => obtain ⟨stmts⟩ := s; rw [astSize]; omega
  | extern_ e => rw [astSize]; omega
  | assignment a => obtain ⟨l, r⟩ := a; rw [astSize]; omega
  | memberAccess m => obtain ⟨l, i⟩ := m; rw [astSize]; omega
  | tuple t => obtain ⟨fields⟩ := t; rw [astSize]; omega
  | reinterpretCast r => obtain ⟨l, t⟩ := r; rw [astSize]; omega
  | builtin b => rw [astSize]; omega

theorem astListSize_pos (l : List Ast) : 0 < astListSize l := by
  cases l with
  | nil => rw [astListSize]; omega
  | cons x xs => rw [astListSize]; omega

theorem treeSize_pos (t : DecisionTree) : 0 < treeSize t := by
  cases t with
  | leaf i => rw [treeSize]; omega
  | definition d rest => rw [treeSize]; omega
  | switch s cs e => rw [treeSize]; omega

theorem casesSize_pos (cs : List (U32 × DecisionTree)) : 0 < casesSize cs := by
  cases cs with
  | nil => rw [casesSize]; omega
  | cons c cs =>
    obtain ⟨l, t⟩ := c
    rw [casesSize]
    omega

theorem optAstSize_pos (o : Option Ast) : 0 < optAstSize o := by
  cases o with
  | none => rw [optAstSize]; omega
  | some a => rw [optAstSize]; omega

theorem optTreeSize_pos (o : Option DecisionTree) : 0 < optTreeSize o := by
  cases o with
  | none => rw [optTreeSize]; omega
  | some t => rw [optTreeSize]; omega

theorem FmtTask.size_pos (t : FmtTask) : 0 < t.size := by
  cases t with
  | one a => rw [FmtTask.size]; exact astSize_pos a
  | many l => rw [FmtTask.size]; exact astListSize_pos l
  | tree t => rw [FmtTask.size]; exact treeSize_pos t
  | treeCases cs => rw [FmtTask.size]; exact casesSize_pos cs
  | optAst o => rw [FmtTask.size]; exact optAstSize_pos o
  | optTree o => rw [FmtTask.size]; exact optTreeSize_pos o

theorem StepOk.refl {n : Nat} {st : PrinterSt} (hn : 0 < n) : StepOk n st st :=
  ⟨[], by simp, by simp, rfl, by simpa using hn, fun h => h⟩

theorem StepOk.mono {n m : Nat} {st st2 : PrinterSt}
    (h : StepOk n st st2) (hle : n ≤ m) : StepOk m st st2 := by
  obtain ⟨new, h1, h2, h3, h4, h5⟩ := h
  exact ⟨new, h1, h2, h3, by omega, h5⟩

theorem StepOk.trans {n1 n2 : Nat} {st st1 st2 : PrinterSt}
    (h : StepOk n1 st st1) (h2 : StepOk n2 st1 st2) :
    StepOk (n1 + n2) st st2 := by
  obtain ⟨new1, ha1, ha2, ha3, ha4, ha5⟩ := h
  obtain ⟨new2, hb1, hb2, hb3, hb4, hb5⟩ := h2
  refine ⟨new1 ++ new2, ?_, ?_, ?_, ?_, ?_⟩
  · rw [hb1, ha1, List.append_assoc]
  · rw [hb2, ha2, List.map_append, List.append_assoc]
  · rw [hb3, ha3]
  · rw [List.map_append, List.sum_append]
    omega
  · intro hnd
    exact hb5 (ha5 hnd)

theorem fmtStep_stepOk : ∀ (fuel : Nat) (task : FmtTask) (st : PrinterSt),
    StepOk task.size st (fmtStep fuel task st).2 := by
  intro fuel
  induction fuel with
  | zero =>
    intro task st
    exact StepOk.refl (FmtTask.size_pos task)
  | succ fuel ih =>
    intro task st
    cases task with
    | one a =>
      cases a with
      | literal l => exact StepOk.refl (FmtTask.size_pos _)
      | var v =>
        obtain ⟨d, i⟩ := v
        cases d with
        | none => exact StepOk.refl (FmtTask.size_pos _)
        | some defAst =>
          show StepOk _ st (fmtVar (.mk (some defAst) i) st).2
          rw [fmtVar]
          by_cases hmem : i ∈ st.seen
          · rw [if_pos hmem]
            exact StepOk.refl (FmtTask.size_pos _)
          · rw [if_neg hmem]
            refine ⟨[(i, defAst)], rfl, by simp, rfl, ?_, ?_⟩
            · simp only [FmtTask.size, astSize, optAstSize, List.map_cons,
                List.map_nil, List.sum_cons, List.sum_nil]
              omega
            · intro hnd
              show (st.seen ++ [i]).Nodup
              rw [List.nodup_append]
              exact ⟨hnd, List.nodup_singleton _, fun x hx hxi =>
                hmem ((List.mem_singleton.mp hxi) ▸ hx)⟩
      | lambda l =>
        obtain ⟨args, body, typ⟩ := l
        refine StepOk.mono ((ih (.many args) st).trans (ih (.one body) _)) ?_
        simp only [FmtTask.size]
        rw [astSize]
        omega
      | functionCall c =>
        obtain ⟨f, args⟩ := c
        refine StepOk.mono ((ih (.one f) st).trans (ih (.many args) _)) ?_
        simp only [FmtTask.size]
        rw [astSize]
        omega
      | definition d =>
        obtain ⟨v, expr, m⟩ := d
        refine StepOk.mono (ih (.one expr) st) ?_
        simp only [FmtTask.size]
        rw [astSize]
        omega
      | if_ i =>
        obtain ⟨c, t, o⟩ := i
        refine StepOk.mono
          (((ih (.one c) st).trans (ih (.one t) _)).trans (ih (.optAst o) _)) ?_
        simp only [FmtTask.size]
        rw [astSize]
        omega
      | match_ m =>
        obtain ⟨branches, dtree⟩ := m
        refine StepOk.mono ((ih (.tree dtree) st).trans (ih (.many branches) _)) ?_
        simp only [FmtTask.size]
        rw [astSize]
        omega
      | return_ r =>
        obtain ⟨e⟩ := r
        refine StepOk.mono (ih (.one e) st) ?_
        simp only [FmtTask.size]
        rw [astSize]
        omega
      | sequence sq =>
        obtain ⟨stmts⟩ := sq
        refine StepOk.mono (ih (.many stmts) st) ?_
        simp only [FmtTask.size]
        rw [astSize]
        omega
      | extern_ e =>
        obtain ⟨name, typ⟩ := e
        exact StepOk.refl (FmtTask.size_pos _)
      | assignment asg =>
        obtain ⟨l, r⟩ := asg
        refine StepOk.mono ((ih (.one l) st).trans (ih (.one r) _)) ?_
        simp only [FmtTask.size]
        rw [astSize]
        omega
      | memberAccess m =>
        obtain ⟨l, i⟩ := m
        refine StepOk.mono (ih (.one l) st) ?_
        simp only [FmtTask.size]
        rw [astSize]
        omega
      | tuple t =>
        obtain ⟨fields⟩ := t
        refine StepOk.mono (ih (.many fields) st) ?_
        simp only [FmtTask.size]
        rw [astSize]
        omega
      | reinterpretCast r =>
        obtain ⟨l, t⟩ := r
        refine StepOk.mono (ih (.one l) st) ?_
        simp only [FmtTask.size]
        rw [astSize]
        omega
      | builtin b => exact StepOk.refl (FmtTask.size_pos _)
    | many l =>
      cases l with
      | nil => exact StepOk.refl (FmtTask.size_pos _)
      | cons x xs =>
        refine StepOk.mono ((ih (.one x) st).trans (ih (.many xs) _)) ?_
        simp only [FmtTask.size]
        rw [astListSize]
        omega
    | tree t =>
      cases t with
      | leaf i => exact StepOk.refl (FmtTask.size_pos _)
      | definition d rest =>
        obtain ⟨v, expr, m⟩ := d
        refine StepOk.mono
          ((ih (.one (Ast.definition (.mk v expr m))) st).trans (ih (.tree rest) _)) ?_
        simp only [FmtTask.size]
        rw [astSize, treeSize, defSize]
        omega
      | switch scrut cases els =>
        refine StepOk.mono
          (((ih (.one scrut) st).trans (ih (.treeCases cases) _)).trans
            (ih (.optTree els) _)) ?_
        simp only [FmtTask.size]
        rw [treeSize]
        omega
    | treeCases cs =>
      cases cs with
      | nil => exact StepOk.refl (FmtTask.size_pos _)
      | cons c cs =>
        obtain ⟨lbl, t⟩ := c
        refine StepOk.mono ((ih (.tree t) st).trans (ih (.treeCases cs) _)) ?_
        simp only [FmtTask.size]
        rw [casesSize]
        omega
    | optAst o =>
      cases o with
      | none => exact StepOk.refl (FmtTask.size_pos _)
      | some a =>
        refine StepOk.mono (ih (.one a) st) ?_
        simp only [FmtTask.size]
        rw [optAstSize]
        omega
    | optTree o =>
      cases o with
      | none => exact StepOk.refl (FmtTask.size_pos _)
      | some t =>
        refine StepOk.mono (ih (.tree t) st) ?_
        simp only [FmtTask.size]
        rw [optTreeSize]
        omega

theorem drain_ok : ∀ (dfuel wfuel : Nat) (st : PrinterSt) (acc : String),
    st.seen.Nodup →
    st.printed ++ st.queue.map Prod.fst = st.seen →
    queueMeasure st < dfuel →
    ∃ out st2, drain dfuel wfuel st acc = some (out, st2) ∧
      st2.queue = [] ∧ st2.printed = st2.seen ∧ st2.printed.Nodup := by
  intro dfuel
  induction dfuel with
  | zero =>
    intro wfuel st acc _ _ hm
    exact absurd hm (Nat.not_lt_zero _)
  | succ dfuel ih =>
    intro wfuel st acc hnd hP hm
    cases hq : st.queue with
    | nil =>
      have hps : st.printed = st.seen := by
        rw [← hP, hq]
        simp
      refine ⟨acc, st, ?_, hq, hps, hps ▸ hnd⟩
      simp only [drain, hq]
    | cons item rest =>
      obtain ⟨id, a⟩ := item
      obtain ⟨new, hq2, hs2, hp2, hsum, hnd2⟩ :=
        fmtStep_stepOk wfuel (.one a) ⟨rest, st.seen, st.printed ++ [id]⟩
      rw [FmtTask.size] at hsum
      have hnd2' : (fmtStep wfuel (.one a)
          ⟨rest, st.seen, st.printed ++ [id]⟩).2.seen.Nodup := hnd2 hnd
      have hP2 : (fmtStep wfuel (.one a)
            ⟨rest, st.seen, st.printed ++ [id]⟩).2.printed ++
          (fmtStep wfuel (.one a)
            ⟨rest, st.seen, st.printed ++ [id]⟩).2.queue.map Prod.fst =
          (fmtStep wfuel (.one a)
            ⟨rest, st.seen, st.printed ++ [id]⟩).2.seen := by
        rw [hp2, hq2, hs2]
        show (st.printed ++ [id]) ++ (rest ++ new).map Prod.fst =
          st.seen ++ new.map Prod.fst
        rw [hq] at hP
        simp only [List.map_cons] at hP
        rw [List.map_append, ← hP]
        simp [List.append_assoc]
      have hm2 : queueMeasure (fmtStep wfuel (.one a)
          ⟨rest, st.seen, st.printed ++ [id]⟩).2 < dfuel := by
        rw [queueMeasure, hq2, List.map_append, List.sum_append]
        rw [queueMeasure, hq, List.map_cons, List.sum_cons] at hm
        simp at hm hsum ⊢
        omega
      obtain ⟨out, st3, hdr, h1, h2, h3⟩ := ih wfuel _
        (acc ++ "\n\n" ++ (fmtStep wfuel (.one a)
          ⟨rest, st.seen, st.printed ++ [id]⟩).1) hnd2' hP2 hm2
      refine ⟨out, st3, ?_, h1, h2, h3⟩
      simp only [drain, hq]
      exact hdr

theorem drain_mono : ∀ (d1 d2 wfuel : Nat) (st : PrinterSt) (acc : String)
    (r : String × PrinterSt), d1 ≤ d2 →
    drain d1 wfuel st acc = some r → drain d2 wfuel st acc = some r := by
  intro d1
  induction d1 with
  | zero =>
    intro d2 wfuel st acc r _ hr
    cases hr
  | succ d1 ih =>
    intro d2 wfuel st acc r hle hr
    obtain ⟨d2p, rfl⟩ : ∃ d2p, d2 = d2p + 1 := ⟨d2 - 1, by omega⟩
    cases hq : st.queue with
    | nil =>
      simp only [drain, hq] at hr ⊢
      exact hr
    | cons item rest =>
      obtain ⟨id, a⟩ := item
      simp only [drain, hq] at hr ⊢
      exact ih d2p wfuel _ _ r (by omega) hr

/-- Claim C6: printing any `Ast` through the modelled `Display` pipeline
terminates — the queue loop provably completes within the computed bound —
and the queue loop prints each scheduled definition identity exactly once
(`printed` has no duplicates), in exactly the order the identities were
first encountered and scheduled (`printed` equals the final `seen` schedule). -/
theorem display_terminates_each_definition_once (a : Ast) :
    ∃ out st, display a = some (out, st) ∧ st.queue = [] ∧
      st.printed = st.seen ∧ st.printed.Nodup := by
  obtain ⟨new, hq, hs, hp, _, hnd⟩ :=
    fmtStep_stepOk (astSize a) (.one a) ⟨[], [], []⟩
  have h1 : (fmtStep (astSize a) (.one a) ⟨[], [], []⟩).2.seen.Nodup :=
    hnd List.nodup_nil
  have h2 : (fmtStep (astSize a) (.one a) ⟨[], [], []⟩).2.printed ++
      (fmtStep (astSize a) (.one a) ⟨[], [], []⟩).2.queue.map Prod.fst =
      (fmtStep (astSize a) (.one a) ⟨[], [], []⟩).2.seen := by
    rw [hp, hq, hs]
    show ([] : List DefinitionId) ++ (([] : List (DefinitionId × Ast)) ++ new).map Prod.fst =
      ([] : List DefinitionId) ++ new.map Prod.fst
    simp
  obtain ⟨out, st2, hdr, hh1, hh2, hh3⟩ :=
    drain_ok (queueMeasure (fmtStep (astSize a) (.one a) ⟨[], [], []⟩).2 + 1)
      (astSize a) (fmtStep (astSize a) (.one a) ⟨[], [], []⟩).2
      (fmtStep (astSize a) (.one a) ⟨[], [], []⟩).1 h1 h2 (Nat.lt_succ_self _)
  exact ⟨out, st2, hdr, hh1, hh2, hh3⟩

/-- Claim C7: the printer is deterministic — it is a pure function of the
`Ast` value, and any two complete runs of the queue loop, whatever iteration
bounds they were given, produce the identical text and final state. -/
theorem display_deterministic (a : Ast) (d1 d2 : Nat)
    (r1 r2 : String × PrinterSt)
    (h1 : displayWith d1 a = some r1) (h2 : displayWith d2 a = some r2) :
    r1 = r2 := by
  rw [displayWith] at h1 h2
  rcases Nat.le_total d1 d2 with h | h
  · have h1x := drain_mono d1 d2 (astSize a) _ _ r1 h h1
    rw [h1x] at h2
    injection h2
  · have h2x := drain_mono d2 d1 (astSize a) _ _ r2 h h2
    rw [h2x] at h1
    injection h1 with h
    exact h.symm

/-- Witness for C7: two runs on the unit literal, with different loop
bounds, both produce `"()"` with an empty final state, and the theorem
identifies their results. -/
theorem display_deterministic_witness :
    displayWith 1 (Ast.literal .unit) = some ("()", ⟨[], [], []⟩) ∧
    displayWith 2 (Ast.literal .unit) = some ("()", ⟨[], [], []⟩) ∧
    (("()", (⟨[], [], []⟩ : PrinterSt)) : String × PrinterSt) =
      ("()", ⟨[], [], []⟩) :=
  ⟨rfl, rfl,
    display_deterministic (Ast.literal .unit) 1 2 _ _ rfl rfl⟩

end Hir
